import Mathlib

/-!
Shallow embedding of the fuzzy name-resolution core of `src/sts_relics.py`
(class `STSWikiReader` and the window scan `RedditBot.check_all_word_combos`).

Python strings are modelled as lists of characters.  Python sets are
duplicate-free lists in insertion order (`setAdd` / `setRemove`); Python
dicts are association lists (`dictLookup` / `dictInsert` / `dictErase`).
`set.remove` and `del dict[key]` raise `KeyError` on a missing key, so the
embedded operations return `Option`, and `none` marks the raised exception.
Wall-clock staleness checks (`datetime.utcnow`) and the web fetch are
external I/O: `update_info` takes the fetched name snapshot as an argument
and the embedded lookup functions model the non-refreshing path.
The Jaro-Winkler similarity comes from the third-party `strsimpy` package,
so it is kept abstract: a parameter `sim : Str → Str → ℚ` (spec section 4.4
guarantees its values lie in `[0,1]`, which theorems take as a hypothesis
where needed).
-/

abbrev Str := List Char

/-- Python `s.replace(pat, rep)` for a non-empty pattern: scan left to
right, replacing non-overlapping occurrences.  The `Nat` argument is fuel,
always instantiated with the length of the string, which bounds the
recursion while keeping the definition structural. -/
def pyReplaceAux (pat rep : Str) : Nat → Str → Str
  | _, [] => []
  | 0, s => s
  | fuel+1, c :: rest =>
    if pat ≠ [] ∧ pat.isPrefixOf (c :: rest) = true then
      rep ++ pyReplaceAux pat rep fuel (List.drop pat.length (c :: rest))
    else
      c :: pyReplaceAux pat rep fuel rest

/-- Python `s.replace(pat, rep)`. -/
def pyReplace (pat rep s : Str) : Str := pyReplaceAux pat rep s.length s

/-- `STSWikiReader._rm_symbol`: strips `? , . ! ( ) :` in that order. -/
def rm_symbol (name : Str) : Str :=
  pyReplace [':'] [] (pyReplace [')'] [] (pyReplace ['('] []
    (pyReplace ['!'] [] (pyReplace ['.'] [] (pyReplace [','] []
      (pyReplace ['?'] [] name))))))

/-- The second pattern of `_rm_squote`: the source file holds the bytes
`c3 a2 e2 82 ac e2 84 a2`, i.e. the three characters `â`, `€`, `™`. -/
def squoteMoji : Str := ['â', '€', '™']

/-- `STSWikiReader._rm_squote`: strips the straight apostrophe, then the
three-character curly-quote mojibake sequence. -/
def rm_squote (name : Str) : Str :=
  pyReplace squoteMoji [] (pyReplace ['\''] [] name)

/-- One character of Python `str.lower`, modelled on the ASCII range
(`A`-`Z` map to `a`-`z`) and the identity elsewhere.  The names and claim
inputs in play only exercise this range. -/
def pyLowerChar (c : Char) : Char :=
  if 65 ≤ c.toNat ∧ c.toNat ≤ 90 then Char.ofNat (c.toNat + 32) else c

/-- `STSWikiReader._lower`: Python `name.lower()`. -/
def pyLower (name : Str) : Str := name.map pyLowerChar

/-- `STSWikiReader._rm_hyph`: replaces `-` and then `_` by a space. -/
def rm_hyph (name : Str) : Str :=
  pyReplace ['_'] [' '] (pyReplace ['-'] [' '] name)

/-- `STSWikiReader._rm_beta`: strips `_beta`, `_Beta`, `Beta`, `beta`,
in that order. -/
def rm_beta (name : Str) : Str :=
  pyReplace ['b','e','t','a'] [] (pyReplace ['B','e','t','a'] []
    (pyReplace ['_','B','e','t','a'] [] (pyReplace ['_','b','e','t','a'] [] name)))

/-- `STSWikiReader._append_s`: appends a trailing `s`. -/
def append_s (name : Str) : Str := name ++ ['s']

/-- The ordered action pipeline of `_gen_alternative_names`. -/
def actions : List (Str → Str) :=
  [rm_symbol, rm_squote, pyLower, rm_hyph, rm_beta, append_s]

/-- Python `set.add` on a duplicate-free list: append if absent. -/
def setAdd (l : List Str) (x : Str) : List Str := if x ∈ l then l else l ++ [x]

/-- Python `set.remove`: `none` models the `KeyError` on a missing element. -/
def setRemove (l : List Str) (x : Str) : Option (List Str) :=
  if x ∈ l then some (l.erase x) else none

/-- Python `dict[key]` lookup. -/
def dictLookup {β : Type} : List (Str × β) → Str → Option β
  | [], _ => none
  | (k, v) :: rest, key => if k = key then some v else dictLookup rest key

/-- Python `dict[key] = val`: overwrite in place or append. -/
def dictInsert {β : Type} : List (Str × β) → Str → β → List (Str × β)
  | [], key, val => [(key, val)]
  | (k, v) :: rest, key, val =>
    if k = key then (key, val) :: rest else (k, v) :: dictInsert rest key val

/-- Python `del dict[key]`: `none` models the `KeyError` on a missing key. -/
def dictErase {β : Type} : List (Str × β) → Str → Option (List (Str × β))
  | [], _ => none
  | (k, v) :: rest, key =>
    if k = key then some rest else (dictErase rest key).map (fun m => (k, v) :: m)

/-- The inner loop of `_gen_alternative_names`: starting at action index
`outer + inner`, performs `count` more applications, inserting each
intermediate string. -/
def genInner (outer : Nat) : Nat → Nat → Str × List Str → Str × List Str
  | _, 0, p => p
  | inner, count+1, p =>
    let t := (actions.getD (outer + inner) (fun s => s)) p.1
    genInner outer (inner+1) count (t, setAdd p.2 t)

/-- The outer loop of `_gen_alternative_names`: for `count` consecutive
starting offsets beginning at `outer`, run the inner loop over the
remaining `6 - outer` actions, restarting from the original name. -/
def genOuter (name : Str) : Nat → Nat → List Str → List Str
  | _, 0, names => names
  | outer, count+1, names =>
    genOuter name (outer+1) count (genInner outer 0 (6 - outer) (name, names)).2

/-- `STSWikiReader._gen_alternative_names`. -/
def gen_alternative_names (name : Str) : List Str := genOuter name 0 6 []

/-- Python `name.split(' ')`: split on every single space, keeping empty
pieces (`''.split(' ') == ['']`). -/
def pySplit : Str → List Str
  | [] => [[]]
  | c :: rest =>
    if c = ' ' then [] :: pySplit rest
    else
      match pySplit rest with
      | [] => [[c]]
      | w :: ws => (c :: w) :: ws

/-- Python `' '.join(words)`. -/
def joinSpace : List Str → Str
  | [] => []
  | [w] => w
  | w :: ws => w ++ ' ' :: joinSpace ws

/-- `len(name.split(' '))`, the word count used throughout the reader. -/
def wordCount (s : Str) : Nat := (pySplit s).length

/-- The mutable state of one `STSWikiReader` (minus `last_update`, `links`
and `parse_names`, which belong to the external I/O boundary). -/
structure Reader where
  base_set : List Str
  real_names : List Str
  fake_name_map : List (Str × Str)
  ignore_list : List Str
  max_name_word_cnt : Nat
  cur : Option Str
  max_match : ℚ
deriving DecidableEq

/-- The state built by `STSWikiReader.__init__` just before its initial
`update_info` call. -/
def initReader (ignore : List Str) : Reader :=
  { base_set := [], real_names := [], fake_name_map := [], ignore_list := ignore,
    max_name_word_cnt := 0, cur := none, max_match := 0 }

/-- `STSWikiReader.format_name`:
`_rm_symbol(_rm_squote(_rm_hyph(name.lower())))`. -/
def format_name (name : Str) : Str :=
  rm_symbol (rm_squote (rm_hyph (pyLower name)))

/-- `'Category:'`, the prefix filtered by `update_info`. -/
def categoryPrefix : Str := "Category:".toList

/-- The alias-insertion loop of `update_info` (lines 118-120): add each
generated alias to `base_set` and map it to the canonical name. -/
def addAliases : Reader → Str → List Str → Reader
  | st, _, [] => st
  | st, cur_name, a :: rest =>
    addAliases
      { st with base_set := setAdd st.base_set a,
                fake_name_map := dictInsert st.fake_name_map a cur_name }
      cur_name rest

/-- One fetched name of `update_info`'s ingest loop (lines 104-120):
skip ignored names before touching `seen_list`; otherwise record the name
as seen and, when new and not `Category:`-prefixed, add it with its
aliases and fold its word count into `max_name_word_cnt`. -/
def processFetched (st : Reader) (seen : List Str) (cur_name : Str) :
    Reader × List Str :=
  if cur_name ∈ st.ignore_list then (st, seen)
  else
    let seen' := setAdd seen cur_name
    if cur_name ∉ st.base_set ∧ categoryPrefix.isPrefixOf cur_name = false then
      let st' := { st with
        base_set := setAdd st.base_set cur_name,
        real_names := setAdd st.real_names cur_name,
        fake_name_map := dictInsert st.fake_name_map cur_name cur_name,
        max_name_word_cnt := max st.max_name_word_cnt (wordCount cur_name) }
      (addAliases st' cur_name (gen_alternative_names cur_name), seen')
    else (st, seen')

/-- The whole ingest loop of `update_info` over the fetched snapshot. -/
def addPhase : Reader → List Str → List Str → Reader × List Str
  | st, seen, [] => (st, seen)
  | st, seen, n :: rest =>
    let p := processFetched st seen n
    addPhase p.1 p.2 rest

/-- The alias-removal loop of `update_info` (lines 125-127): each
regenerated alias is removed from `base_set` and deleted from
`fake_name_map`; a missing key raises (`none`). -/
def removeAliases : List Str → List Str → List (Str × Str) →
    Option (List Str × List (Str × Str))
  | [], base, m => some (base, m)
  | a :: rest, base, m => do
    let base' ← setRemove base a
    let m' ← dictErase m a
    removeAliases rest base' m'

/-- Removal of one deleted name (`update_info` lines 124-134): remove its
regenerated aliases, update the recompute flag, then remove the name itself
from `base_set`, `real_names` and `fake_name_map`. -/
def removeName (st : Reader) (recalc : Bool) (cur_name : Str) :
    Option (Reader × Bool) := do
  let (base', map') ←
    removeAliases (gen_alternative_names cur_name) st.base_set st.fake_name_map
  let recalc' := recalc || decide (st.max_name_word_cnt = wordCount cur_name)
  let base'' ← setRemove base' cur_name
  let real' ← setRemove st.real_names cur_name
  let map'' ← dictErase map' cur_name
  some ({ st with base_set := base'', real_names := real',
                  fake_name_map := map'' }, recalc')

/-- The removal loop over all names in `real_names - seen_list`. -/
def removalPhase : Reader → Bool → List Str → Option (Reader × Bool)
  | st, recalc, [] => some (st, recalc)
  | st, recalc, n :: rest => do
    let (st', recalc') ← removeName st recalc n
    removalPhase st' recalc' rest

/-- The lazy recompute of `max_name_word_cnt` (lines 137-140). -/
def recomputeMax (names : List Str) : Nat :=
  names.foldl (fun m n => max m (wordCount n)) 0

/-- `STSWikiReader.update_info`, with the fetched snapshot (the parsed
names of all links, in fetch order) passed in as a value.  `none` models
the `KeyError` escaping from the removal loop. -/
def update_info (st : Reader) (fetched : List Str) : Option Reader := do
  let (st1, seen) := addPhase st [] fetched
  let removed := st1.real_names.filter (fun n => decide (n ∉ seen))
  let (st2, recalc) ← removalPhase st1 false removed
  some (if recalc then
          { st2 with max_name_word_cnt := recomputeMax st2.real_names }
        else st2)

/-- Abstract Jaro-Winkler similarity (`strsimpy` is a third-party
dependency, so it stays a parameter). -/
abbrev Sim := Str → Str → ℚ

/-- The per-phrase score of `check_if_similar` (lines 158-163): the product
over positions of `sim` on the words and on the reversed words. -/
def wordCheck (sim : Sim) (qs cs : List Str) : ℚ :=
  (List.zip qs cs).foldl
    (fun acc p => acc * sim p.1 p.2 * sim p.1.reverse p.2.reverse) 1

/-- The candidate loop of `check_if_similar` (lines 155-168), carrying the
running `max_match` and `cur`.  The `fake_name_map[item_name]` lookup on an
accepted candidate raises on a missing key (`none`). -/
def simLoop (sim : Sim) (m : List (Str × Str)) (qs : List Str) (thresh : ℚ) :
    List Str → ℚ → Option Str → Option (ℚ × Option Str)
  | [], mm, cur => some (mm, cur)
  | item :: rest, mm, cur =>
    if (pySplit item).length = qs.length then
      let wc := wordCheck sim qs (pySplit item)
      if mm < wc then
        if thresh ≤ wc then
          match dictLookup m item with
          | none => none
          | some v => simLoop sim m qs thresh rest wc (some v)
        else simLoop sim m qs thresh rest wc cur
      else simLoop sim m qs thresh rest mm cur
    else simLoop sim m qs thresh rest mm cur

/-- `STSWikiReader.check_if_similar`. -/
def check_if_similar (sim : Sim) (st : Reader) (name : Str) :
    Option (Reader × Bool) :=
  let qs := pySplit (format_name name)
  match simLoop sim st.fake_name_map qs ((9/10 : ℚ) ^ qs.length)
      st.base_set 0 none with
  | none => none
  | some (mm, cur) => some ({ st with max_match := mm, cur := cur }, cur.isSome)

/-- `STSWikiReader.check_if_exists` on its non-refreshing path
(`update=False`, or an index younger than the 15-day staleness bound). -/
def check_if_exists (sim : Sim) (st : Reader) (name : Str) :
    Option (Reader × Bool) :=
  if name ∈ st.real_names then
    some ({ st with cur := some name, max_match := 1 }, true)
  else
    match dictLookup st.fake_name_map name with
    | some v => some ({ st with cur := some v, max_match := 1 }, true)
    | none => check_if_similar sim st name

/-- The `mentions` accumulator of `check_all_word_combos`. -/
abbrev Mentions := List (Str × ℚ)

/-- Lines 274-278: keep the best percent confidence seen per canonical
name. -/
def updateMentions (m : Mentions) (cur : Str) (conf : ℚ) : Mentions :=
  match dictLookup m cur with
  | some old => dictInsert m cur (max conf old)
  | none => dictInsert m cur conf

/-- One phrase window of `check_all_word_combos` (lines 268-278): on a hit,
record `reader.cur` with confidence `reader.max_match * 100`.  A hit with
`cur` unset cannot occur; it is modelled as an error (`none`). -/
def scanPhrase (sim : Sim) (acc : Reader × Mentions) (phrase : Str) :
    Option (Reader × Mentions) := do
  let (st', res) ← check_if_exists sim acc.1 phrase
  if res then
    match st'.cur with
    | some c => some (st', updateMentions acc.2 c (st'.max_match * 100))
    | none => none
  else
    some (st', acc.2)

/-- The window-size loop (lines 264-278): offsets grow from 1 while at most
`max_name_word_cnt` more remain, breaking once the window passes the end of
the title. -/
def scanOffsets (sim : Sim) (words : List Str) (word_pos : Nat) :
    Nat → Nat → Reader × Mentions → Option (Reader × Mentions)
  | _, 0, acc => some acc
  | offset, count+1, acc =>
    if words.length < word_pos + offset then some acc
    else do
      let acc' ← scanPhrase sim acc
        (joinSpace (List.take offset (List.drop word_pos words)))
      scanOffsets sim words word_pos (offset+1) count acc'

/-- The start-position loop (lines 263-278). -/
def scanPositions (sim : Sim) (words : List Str) :
    Nat → Nat → Reader × Mentions → Option (Reader × Mentions)
  | _, 0, acc => some acc
  | pos, count+1, acc => do
    let acc' ← scanOffsets sim words pos 1 acc.1.max_name_word_cnt acc
    scanPositions sim words (pos+1) count acc'

/-- `RedditBot.check_all_word_combos` for a single fresh reader, returning
the final reader state and the `mentions` map. -/
def check_all_word_combos (sim : Sim) (st : Reader) (title : Str) :
    Option (Reader × Mentions) :=
  scanPositions sim (pySplit title) 0 (pySplit title).length (st, [])

/-- Modelled from the spec (section 4.1): the standalone query normalizer
as the spec words it, "primitives 1-4 only, in that fixed order": strip
punctuation, strip apostrophe variants, lowercase, hyphens to spaces. -/
def spec_format_name (name : Str) : Str :=
  rm_hyph (pyLower (rm_squote (rm_symbol name)))

/-- Applying `count` consecutive pipeline actions starting at index `base`
(the spec's suffix `P_base .. P_(base+count-1)` of section 4.2). -/
def applyActs (base : Nat) (t : Str) : Nat → Str
  | 0 => t
  | m+1 => (actions.getD (base+m) (fun s => s)) (applyActs base t m)

/-- The scores of all stored aliases of matching word count, in `base_set`
order (the quantity `check_if_similar` maximises). -/
def phraseScores (sim : Sim) (qs : List Str) (l : List Str) : List ℚ :=
  (l.filter (fun a => decide ((pySplit a).length = qs.length))).map
    (fun a => wordCheck sim qs (pySplit a))

/-- The maximum of a list of scores, 0 for the empty list (the initial
`max_match`). -/
def listMaxQ (l : List ℚ) : ℚ := l.foldl max 0

/-- The claimed invariant: `max_name_word_cnt` equals the maximum word
count over `real_names` (0 when empty). -/
def MaxInv (st : Reader) : Prop :=
  st.max_name_word_cnt = recomputeMax st.real_names

/-- All index fields agree (everything except the diagnostic `cur` and
`max_match`). -/
def sameIndex (a b : Reader) : Prop :=
  a.base_set = b.base_set ∧ a.real_names = b.real_names ∧
  a.fake_name_map = b.fake_name_map ∧ a.ignore_list = b.ignore_list ∧
  a.max_name_word_cnt = b.max_name_word_cnt

/-- The shape of the `mentions` accumulator while scanning a title over an
index whose only canonical name is `N`: empty, or a single entry for `N`
with a percent confidence in `[0, 100]`. -/
def MsInv (N : Str) (ms : Mentions) : Prop :=
  ms = [] ∨ ∃ q : ℚ, 0 ≤ q ∧ q ≤ 100 ∧ ms = [(N, q)]

/-- A degenerate similarity used to instantiate witnesses. -/
def sim0 : Sim := fun _ _ => 0

/-- The reader state right after `update_info` ingests a single fresh name
`N` into the empty index, before the alias loop runs. -/
def seedReader (N : Str) : Reader :=
  { base_set := [N], real_names := [N], fake_name_map := [(N, N)],
    ignore_list := [], max_name_word_cnt := max 0 (wordCount N),
    cur := none, max_match := 0 }

/-- The punctuation characters stripped by `_rm_symbol`. -/
def symChars : Str := ['?', ',', '.', '!', '(', ')', ':']

/-- The per-character action of replacing `-` by a space. -/
def hyph1 (c : Char) : Char := if c = '-' then ' ' else c

/-- The per-character action of replacing `_` by a space. -/
def hyph2 (c : Char) : Char := if c = '_' then ' ' else c

/-- The per-character action shared by primitives 3 and 4: lowercase, then
hyphen and underscore to space. -/
def lowHyph (c : Char) : Char := hyph2 (hyph1 (pyLowerChar c))

/-- Keep a character iff neither `_rm_symbol` nor the straight-quote part
of `_rm_squote` strips it. -/
def keepChar (c : Char) : Bool := decide (c ∉ symChars) && (c != '\'')

/-! ### Helper lemmas about `pyReplace` -/

theorem char_toNat_ofNat (n : Nat) (h : n < 55296) : (Char.ofNat n).toNat = n := by
  have hv : n.isValidChar := Or.inl h
  simp [Char.ofNat, hv, Char.ofNatAux, Char.toNat]
  rfl

theorem pyReplaceAux_filter (c : Char) (fuel : Nat) :
    ∀ s : Str, s.length ≤ fuel →
      pyReplaceAux [c] [] fuel s = s.filter (fun x => x != c) := by
  induction fuel with
  | zero =>
    intro s h
    cases s with
    | nil => simp [pyReplaceAux]
    | cons x rest => simp at h
  | succ f ih =>
    intro s h
    cases s with
    | nil => simp [pyReplaceAux]
    | cons x rest =>
      have hr : rest.length ≤ f := by
        simpa using Nat.le_of_succ_le_succ h
      by_cases hx : c = x
      · subst hx
        simp [pyReplaceAux, List.isPrefixOf, ih rest hr]
      · simp [pyReplaceAux, List.isPrefixOf, Ne.symm hx, ih rest hr,
          bne_iff_ne, hx]

theorem pyReplace_filter (c : Char) (s : Str) :
    pyReplace [c] [] s = s.filter (fun x => x != c) :=
  pyReplaceAux_filter c s.length s le_rfl

theorem pyReplaceAux_map (c d : Char) (fuel : Nat) :
    ∀ s : Str, s.length ≤ fuel →
      pyReplaceAux [c] [d] fuel s = s.map (fun x => if x = c then d else x) := by
  induction fuel with
  | zero =>
    intro s h
    cases s with
    | nil => simp [pyReplaceAux]
    | cons x rest => simp at h
  | succ f ih =>
    intro s h
    cases s with
    | nil => simp [pyReplaceAux]
    | cons x rest =>
      have hr : rest.length ≤ f := by
        simpa using Nat.le_of_succ_le_succ h
      by_cases hx : c = x
      · subst hx
        simp [pyReplaceAux, List.isPrefixOf, ih rest hr]
      · simp [pyReplaceAux, List.isPrefixOf, Ne.symm hx, ih rest hr, hx]

theorem pyReplace_map (c d : Char) (s : Str) :
    pyReplace [c] [d] s = s.map (fun x => if x = c then d else x) :=
  pyReplaceAux_map c d s.length s le_rfl

theorem mem_of_isPrefixOf {pat s : Str} {x : Char} (hx : x ∈ pat)
    (h : pat.isPrefixOf s = true) : x ∈ s := by
  have hp : pat <+: s := List.isPrefixOf_iff_prefix.mp h
  exact hp.sublist.mem hx

theorem pyReplaceAux_id_of_not_mem {pat rep : Str} {x : Char} (hx : x ∈ pat)
    (fuel : Nat) : ∀ s : Str, x ∉ s → pyReplaceAux pat rep fuel s = s := by
  induction fuel with
  | zero =>
    intro s hs
    cases s with
    | nil => simp [pyReplaceAux]
    | cons y rest => simp [pyReplaceAux]
  | succ f ih =>
    intro s hs
    cases s with
    | nil => simp [pyReplaceAux]
    | cons y rest =>
      have hpre : ¬ (pat ≠ [] ∧ pat.isPrefixOf (y :: rest) = true) := by
        rintro ⟨-, hp⟩
        exact hs (mem_of_isPrefixOf hx hp)
      have hrest : x ∉ rest := fun hm => hs (List.mem_cons_of_mem y hm)
      simp only [pyReplaceAux]
      rw [if_neg hpre, ih rest hrest]

theorem pyReplace_id_of_not_mem {pat rep : Str} {x : Char} (hx : x ∈ pat)
    {s : Str} (hs : x ∉ s) : pyReplace pat rep s = s :=
  pyReplaceAux_id_of_not_mem hx s.length s hs

/-! ### Helper lemmas: the normalization primitives -/

theorem mem_rm_symbol {x : Char} {s : Str} :
    x ∈ rm_symbol s ↔ x ∈ s ∧ x ∉ symChars := by
  simp only [rm_symbol, pyReplace_filter, List.mem_filter, bne_iff_ne, symChars]
  simp only [List.mem_cons, List.not_mem_nil]
  tauto

theorem rm_symbol_eq_self {s : Str} (h : ∀ x ∈ s, x ∉ symChars) :
    rm_symbol s = s := by
  have hq : ∀ c : Char, c ∈ symChars → c ∉ s := fun c hc hm => (h c hm) hc
  unfold rm_symbol
  rw [pyReplace_id_of_not_mem (List.mem_singleton_self '?') (hq '?' (by decide)),
    pyReplace_id_of_not_mem (List.mem_singleton_self ',') (hq ',' (by decide)),
    pyReplace_id_of_not_mem (List.mem_singleton_self '.') (hq '.' (by decide)),
    pyReplace_id_of_not_mem (List.mem_singleton_self '!') (hq '!' (by decide)),
    pyReplace_id_of_not_mem (List.mem_singleton_self '(') (hq '(' (by decide)),
    pyReplace_id_of_not_mem (List.mem_singleton_self ')') (hq ')' (by decide)),
    pyReplace_id_of_not_mem (List.mem_singleton_self ':') (hq ':' (by decide))]

theorem rm_symbol_idem (s : Str) : rm_symbol (rm_symbol s) = rm_symbol s :=
  rm_symbol_eq_self fun _ hx => (mem_rm_symbol.mp hx).2

theorem pyLowerChar_idem (c : Char) :
    pyLowerChar (pyLowerChar c) = pyLowerChar c := by
  unfold pyLowerChar
  by_cases h : 65 ≤ c.toNat ∧ c.toNat ≤ 90
  · rw [if_pos h]
    have ht : (Char.ofNat (c.toNat + 32)).toNat = c.toNat + 32 :=
      char_toNat_ofNat _ (by omega)
    have hn : ¬ (65 ≤ (Char.ofNat (c.toNat + 32)).toNat ∧
        (Char.ofNat (c.toNat + 32)).toNat ≤ 90) := by
      rw [ht]; omega
    rw [if_neg hn]
  · rw [if_neg h, if_neg h]

theorem pyLower_idem (s : Str) : pyLower (pyLower s) = pyLower s := by
  unfold pyLower
  rw [List.map_map]
  exact List.map_congr_left fun a _ => pyLowerChar_idem a

theorem rm_hyph_eq_map (s : Str) :
    rm_hyph s = s.map (fun c => hyph2 (hyph1 c)) := by
  simp only [rm_hyph, pyReplace_map, List.map_map]
  exact List.map_congr_left fun a _ => by simp [hyph1, hyph2, Function.comp]

theorem hyph_step_idem (c : Char) :
    hyph2 (hyph1 (hyph2 (hyph1 c))) = hyph2 (hyph1 c) := by
  by_cases h1 : c = '-'
  · subst h1; decide
  · by_cases h2 : c = '_'
    · subst h2; decide
    · simp [hyph1, hyph2, h1, h2]

theorem rm_hyph_idem (s : Str) : rm_hyph (rm_hyph s) = rm_hyph s := by
  simp only [rm_hyph_eq_map, List.map_map]
  exact List.map_congr_left fun a _ => by
    simpa [Function.comp] using hyph_step_idem a

/-- C4, counterexample: primitive 2 (strip apostrophe variants) applied
twice to `ââ€™€™` differs from one application (deleting the mojibake
sequence splices a new occurrence together); primitive 5 (strip beta)
behaves likewise on `bebetata`; primitive 6 (append `s`) keeps appending.
So not every one of the six primitives is idempotent. -/
theorem c4_not_all_idempotent :
    rm_squote (rm_squote ['â','â','€','™','€','™']) ≠
        rm_squote ['â','â','€','™','€','™'] ∧
    rm_beta (rm_beta "bebetata".toList) ≠ rm_beta "bebetata".toList ∧
    append_s (append_s "x".toList) ≠ append_s "x".toList :=
  ⟨by decide, by decide, by decide⟩

/-- C4, amended: primitives 1 (strip punctuation), 3 (lowercase) and
4 (hyphen/underscore to space) are idempotent on every string; the
remaining primitives 2, 5 and 6 are not (see the counterexample). -/
theorem c4_idempotent_primitives (s : Str) :
    rm_symbol (rm_symbol s) = rm_symbol s ∧
    pyLower (pyLower s) = pyLower s ∧
    rm_hyph (rm_hyph s) = rm_hyph s :=
  ⟨rm_symbol_idem s, pyLower_idem s, rm_hyph_idem s⟩

/-! ### Helper lemmas: character-level facts for the normalizer orders -/

theorem char_eq_of_toNat_eq {a b : Char} (h : a.toNat = b.toNat) : a = b :=
  Char.ext (UInt32.ext h)

theorem pyLowerChar_eq_iff (c x : Char)
    (h1 : ¬ (65 ≤ x.toNat ∧ x.toNat ≤ 90))
    (h2 : ¬ (97 ≤ x.toNat ∧ x.toNat ≤ 122)) :
    pyLowerChar c = x ↔ c = x := by
  unfold pyLowerChar
  by_cases h : 65 ≤ c.toNat ∧ c.toNat ≤ 90
  · rw [if_pos h]
    have ht : (Char.ofNat (c.toNat + 32)).toNat = c.toNat + 32 :=
      char_toNat_ofNat _ (by omega)
    constructor
    · intro he
      exfalso
      have := congrArg Char.toNat he
      rw [ht] at this
      exact h2 (by omega)
    · intro he
      exfalso
      have := congrArg Char.toNat he
      exact h1 (by omega)
  · rw [if_neg h]

theorem hyphSteps_eq_iff (b x : Char) (hx : x ≠ ' ' ∧ x ≠ '-' ∧ x ≠ '_') :
    hyph2 (hyph1 b) = x ↔ b = x := by
  by_cases h1 : b = '-'
  · subst h1
    rw [show hyph2 (hyph1 '-') = ' ' from by decide]
    constructor
    · intro he; exact absurd he.symm hx.1
    · intro he; exact absurd he.symm hx.2.1
  · by_cases h2 : b = '_'
    · subst h2
      rw [show hyph2 (hyph1 '_') = ' ' from by decide]
      constructor
      · intro he; exact absurd he.symm hx.1
      · intro he; exact absurd he.symm hx.2.2
    · simp [hyph1, hyph2, h1, h2]

theorem lowHyph_eq_iff (c x : Char)
    (h1 : ¬ (65 ≤ x.toNat ∧ x.toNat ≤ 90))
    (h2 : ¬ (97 ≤ x.toNat ∧ x.toNat ≤ 122))
    (h3 : x ≠ ' ' ∧ x ≠ '-' ∧ x ≠ '_') :
    lowHyph c = x ↔ c = x := by
  unfold lowHyph
  rw [hyphSteps_eq_iff _ _ h3, pyLowerChar_eq_iff _ _ h1 h2]

theorem filter_map_swap (p : Char → Bool) (f : Char → Char) (l : List Char) :
    (l.map f).filter p = (l.filter (fun x => p (f x))).map f := by
  induction l with
  | nil => rfl
  | cons a t ih => by_cases h : p (f a) <;> simp [h, ih]

theorem rm_squote_no_moji {t : Str} (ht : '€' ∉ t) :
    rm_squote t = t.filter (fun x => x != '\'') := by
  unfold rm_squote
  rw [pyReplace_filter]
  exact pyReplace_id_of_not_mem (show '€' ∈ squoteMoji by decide)
    (fun hm => ht (List.mem_filter.mp hm).1)

theorem lowHyph_eq_euro {c : Char} (h : lowHyph c = '€') : c = '€' :=
  (lowHyph_eq_iff c '€' (by decide) (by decide) (by decide)).mp h

theorem map_lowHyph (s : Str) :
    (pyLower s).map (fun c => hyph2 (hyph1 c)) = s.map lowHyph := by
  unfold pyLower
  rw [List.map_map]
  rfl

theorem lowHyph_bne (a x : Char)
    (h1 : ¬ (65 ≤ x.toNat ∧ x.toNat ≤ 90))
    (h2 : ¬ (97 ≤ x.toNat ∧ x.toNat ≤ 122))
    (h3 : x ≠ ' ' ∧ x ≠ '-' ∧ x ≠ '_')
    (hfix : lowHyph x = x) :
    (lowHyph a != x) = (a != x) := by
  by_cases h : a = x
  · subst h; rw [hfix]
  · have hne : lowHyph a ≠ x := fun he => h ((lowHyph_eq_iff a x h1 h2 h3).mp he)
    rw [Bool.eq_iff_iff]
    simp [bne_iff_ne, h, hne]

theorem format_name_eq_filter_map {s : Str} (hs : '€' ∉ s) :
    format_name s = (s.filter keepChar).map lowHyph := by
  have hmap : rm_hyph (pyLower s) = s.map lowHyph := by
    rw [rm_hyph_eq_map, map_lowHyph]
  have heuro : '€' ∉ s.map lowHyph := by
    intro hm
    rcases List.mem_map.mp hm with ⟨a, ha, hEq⟩
    exact hs (by rwa [lowHyph_eq_euro hEq] at ha)
  have e1 : ∀ l : List Char,
      l.filter (fun x => lowHyph x != '\'') = l.filter (fun x => x != '\'') :=
    fun l => List.filter_congr fun a _ =>
      lowHyph_bne a '\'' (by decide) (by decide) (by decide) (by decide)
  have e2 : ∀ l : List Char,
      l.filter (fun x => lowHyph x != '?') = l.filter (fun x => x != '?') :=
    fun l => List.filter_congr fun a _ =>
      lowHyph_bne a '?' (by decide) (by decide) (by decide) (by decide)
  have e3 : ∀ l : List Char,
      l.filter (fun x => lowHyph x != ',') = l.filter (fun x => x != ',') :=
    fun l => List.filter_congr fun a _ =>
      lowHyph_bne a ',' (by decide) (by decide) (by decide) (by decide)
  have e4 : ∀ l : List Char,
      l.filter (fun x => lowHyph x != '.') = l.filter (fun x => x != '.') :=
    fun l => List.filter_congr fun a _ =>
      lowHyph_bne a '.' (by decide) (by decide) (by decide) (by decide)
  have e5 : ∀ l : List Char,
      l.filter (fun x => lowHyph x != '!') = l.filter (fun x => x != '!') :=
    fun l => List.filter_congr fun a _ =>
      lowHyph_bne a '!' (by decide) (by decide) (by decide) (by decide)
  have e6 : ∀ l : List Char,
      l.filter (fun x => lowHyph x != '(') = l.filter (fun x => x != '(') :=
    fun l => List.filter_congr fun a _ =>
      lowHyph_bne a '(' (by decide) (by decide) (by decide) (by decide)
  have e7 : ∀ l : List Char,
      l.filter (fun x => lowHyph x != ')') = l.filter (fun x => x != ')') :=
    fun l => List.filter_congr fun a _ =>
      lowHyph_bne a ')' (by decide) (by decide) (by decide) (by decide)
  have e8 : ∀ l : List Char,
      l.filter (fun x => lowHyph x != ':') = l.filter (fun x => x != ':') :=
    fun l => List.filter_congr fun a _ =>
      lowHyph_bne a ':' (by decide) (by decide) (by decide) (by decide)
  unfold format_name
  rw [hmap, rm_squote_no_moji heuro]
  unfold rm_symbol
  simp only [pyReplace_filter, filter_map_swap]
  simp only [e1, e2, e3, e4, e5, e6, e7, e8]
  refine congrArg (List.map lowHyph) ?_
  simp only [List.filter_filter]
  exact List.filter_congr fun a _ => by
    rw [Bool.eq_iff_iff]
    simp [keepChar, symChars, bne_iff_ne]
    tauto

theorem spec_format_name_eq_filter_map {s : Str} (hs : '€' ∉ s) :
    spec_format_name s = (s.filter keepChar).map lowHyph := by
  have hsub : ∀ (p : Char → Bool) (l : List Char), '€' ∉ l → '€' ∉ l.filter p :=
    fun p l h hm => h (List.mem_filter.mp hm).1
  unfold spec_format_name rm_symbol
  simp only [pyReplace_filter]
  rw [rm_squote_no_moji
    (hsub _ _ (hsub _ _ (hsub _ _ (hsub _ _ (hsub _ _ (hsub _ _ (hsub _ _ hs)))))))]
  rw [rm_hyph_eq_map, map_lowHyph]
  refine congrArg (List.map lowHyph) ?_
  simp only [List.filter_filter]
  exact List.filter_congr fun a _ => by
    rw [Bool.eq_iff_iff]
    simp [keepChar, symChars, bne_iff_ne]
    tauto

/-- C8, counterexample: on `â,€™` the code order (lowercase, hyphens,
apostrophe variants, punctuation) differs from the spec order (punctuation,
apostrophe variants, lowercase, hyphens): stripping the comma first creates
a new occurrence of the curly-quote mojibake sequence, which the spec order
then deletes while the code order keeps it. -/
theorem c8_order_counterexample :
    format_name "â,€™".toList ≠ spec_format_name "â,€™".toList := by decide

/-- C8, amended: for every string without the character `€` (so the
three-character curly-quote mojibake pattern cannot arise or be spliced
together), `format_name` agrees with the spec-ordered composition of
primitives 1-4. -/
theorem c8_format_name_agrees (s : Str) (h : '€' ∉ s) :
    format_name s = spec_format_name s := by
  rw [format_name_eq_filter_map h, spec_format_name_eq_filter_map h]

theorem c8_format_name_agrees_witness :
    '€' ∉ "Ab-c!".toList ∧
      format_name "Ab-c!".toList = spec_format_name "Ab-c!".toList :=
  ⟨by decide, c8_format_name_agrees _ (by decide)⟩

/-! ### Helper lemmas: the alias generator (C7, C9) -/

theorem mem_setAdd {l : List Str} {x y : Str} :
    x ∈ setAdd l y ↔ x ∈ l ∨ x = y := by
  unfold setAdd
  by_cases h : y ∈ l
  · rw [if_pos h]
    constructor
    · exact Or.inl
    · rintro (hx | rfl)
      · exact hx
      · exact h
  · rw [if_neg h]
    simp

theorem applyActs_shift (b : Nat) (t : Str) :
    ∀ m : Nat, applyActs (b+1) ((actions.getD b (fun s => s)) t) m =
      applyActs b t (m+1) := by
  intro m
  induction m with
  | zero => rfl
  | succ k ih =>
    show (actions.getD (b+1+k) (fun s => s)) _ =
      (actions.getD (b+(k+1)) (fun s => s)) _
    rw [ih, show b+1+k = b+(k+1) from by omega]

theorem genInner_snd_mem (outer : Nat) :
    ∀ (count i : Nat) (t : Str) (ns : List Str) (x : Str),
      x ∈ (genInner outer i count (t, ns)).2 ↔
        x ∈ ns ∨ ∃ j, j < count ∧ x = applyActs (outer + i) t (j + 1) := by
  intro count
  induction count with
  | zero =>
    intro i t ns x
    simp [genInner]
  | succ c ih =>
    intro i t ns x
    show x ∈ (genInner outer (i+1) c
      ((actions.getD (outer + i) (fun s => s)) t,
        setAdd ns ((actions.getD (outer + i) (fun s => s)) t))).2 ↔ _
    rw [ih (i+1)]
    constructor
    · rintro (hns | ⟨j, hj, hx⟩)
      · rcases mem_setAdd.mp hns with h | h
        · exact Or.inl h
        · exact Or.inr ⟨0, Nat.succ_pos c, h⟩
      · refine Or.inr ⟨j+1, by omega, ?_⟩
        rw [hx]
        exact applyActs_shift (outer + i) t (j+1)
    · rintro (hns | ⟨j, hj, hx⟩)
      · exact Or.inl (mem_setAdd.mpr (Or.inl hns))
      · cases j with
        | zero => exact Or.inl (mem_setAdd.mpr (Or.inr hx))
        | succ j' =>
          refine Or.inr ⟨j', by omega, ?_⟩
          rw [hx]
          exact (applyActs_shift (outer + i) t (j'+1)).symm

theorem genOuter_mem (name : Str) :
    ∀ (count o : Nat) (ns : List Str) (x : Str),
      x ∈ genOuter name o count ns ↔
        x ∈ ns ∨ ∃ q j, q < count ∧ j < 6 - (o + q) ∧
          x = applyActs (o + q) name (j + 1) := by
  intro count
  induction count with
  | zero =>
    intro o ns x
    simp [genOuter]
  | succ c ih =>
    intro o ns x
    show x ∈ genOuter name (o+1) c (genInner o 0 (6 - o) (name, ns)).2 ↔ _
    rw [ih (o+1), genInner_snd_mem o (6 - o) 0 name ns x]
    constructor
    · rintro ((hns | ⟨j, hj, hx⟩) | ⟨q, j, hq, hj, hx⟩)
      · exact Or.inl hns
      · exact Or.inr ⟨0, j, by omega, by omega, by simpa using hx⟩
      · refine Or.inr ⟨q+1, j, by omega, by omega, ?_⟩
        rw [show o + (q+1) = o+1+q from by omega]
        exact hx
    · rintro (hns | ⟨q, j, hq, hj, hx⟩)
      · exact Or.inl (Or.inl hns)
      · cases q with
        | zero => exact Or.inl (Or.inr ⟨j, by omega, by simpa using hx⟩)
        | succ q' =>
          refine Or.inr ⟨q', j, by omega, by omega, ?_⟩
          rw [show o+1+q' = o + (q'+1) from by omega]
          exact hx

/-- C7: the alias generator returns exactly the set of intermediate strings
obtained by, for each starting offset `o` of the pipeline, applying the
actions `P_o, ..., P_(o+k)` (any `k` with `o + k < 6`) to the original name
and collecting the string after every single application; in particular the
fully lowercased name (offset 2, one application) is always a member. -/
theorem c7_gen_alternative_names_spec (name : Str) :
    (∀ x : Str, x ∈ gen_alternative_names name ↔
      ∃ o k, o + k < 6 ∧ x = applyActs o name (k + 1)) ∧
    pyLower name ∈ gen_alternative_names name := by
  have hc : ∀ x : Str, x ∈ gen_alternative_names name ↔
      ∃ o k, o + k < 6 ∧ x = applyActs o name (k + 1) := by
    intro x
    unfold gen_alternative_names
    rw [genOuter_mem name 6 0 [] x]
    simp only [List.not_mem_nil, false_or, Nat.zero_add]
    constructor
    · rintro ⟨q, j, hq, hj, hx⟩
      exact ⟨q, j, by omega, hx⟩
    · rintro ⟨o, k, hok, hx⟩
      exact ⟨o, k, by omega, by omega, hx⟩
  refine ⟨hc, (hc (pyLower name)).mpr ⟨2, 0, by omega, rfl⟩⟩

/-- C9: for a name containing none of the stripped punctuation characters,
the offset-0 run of the generator inserts `_rm_symbol(name) = name` itself,
so the generated alias set contains the name unchanged. -/
theorem c9_self_alias_generated (name : Str) (h : ∀ x ∈ name, x ∉ symChars) :
    name ∈ gen_alternative_names name := by
  unfold gen_alternative_names
  rw [genOuter_mem name 6 0 [] name]
  refine Or.inr ⟨0, 0, by omega, by omega, ?_⟩
  show name = (actions.getD 0 (fun s => s)) name
  show name = rm_symbol name
  exact (rm_symbol_eq_self h).symm

theorem c9_self_alias_generated_witness :
    (∀ x ∈ "Snecko Eye".toList, x ∉ symChars) ∧
      "Snecko Eye".toList ∈ gen_alternative_names "Snecko Eye".toList :=
  ⟨by decide, c9_self_alias_generated _ (by decide)⟩

/-! ### C1, C2: the removal loop raises on reachable states -/

/-- C1 (code bug witness computation): seed the index with `abc` via
`refresh({abc}, {})`, then refresh with an empty snapshot.  The alias loop
for `abc` already removes the string `abc` itself (it is its own generated
alias), so line 132's `base_set.remove(cur_name)` raises `KeyError`: the
second refresh aborts (`none`) instead of completing with `exists(abc)`
false. -/
theorem c1_removal_keyerror :
    (update_info (initReader []) ["abc".toList]).bind
      (fun st => update_info st []) = none := by decide

/-- C2 (code bug witness computation): from the reachable state built by
`refresh({xy}, {})`, the removal pass of `refresh({}, {})` reaches the
error branch (a `set.remove`/`del` on an absent key), so the claimed
totality of the diffing core fails. -/
theorem c2_removal_error_branch :
    (update_info (initReader []) ["xy".toList]).bind
      (fun st => update_info st []) = none := by decide

/-! ### Helper lemmas: frame properties of the lookups (C10) -/

theorem check_if_similar_frame {sim : Sim} {st : Reader} {name : Str}
    {st' : Reader} {b : Bool}
    (h : check_if_similar sim st name = some (st', b)) : sameIndex st' st := by
  rw [check_if_similar.eq_def] at h
  simp only [] at h
  cases hm : simLoop sim st.fake_name_map (pySplit (format_name name))
      ((9/10 : ℚ) ^ (pySplit (format_name name)).length) st.base_set 0 none with
  | none => rw [hm] at h; exact absurd h (by simp)
  | some p =>
    rw [hm] at h
    simp only [Option.some.injEq, Prod.mk.injEq] at h
    rw [← h.1]
    exact ⟨rfl, rfl, rfl, rfl, rfl⟩

theorem check_if_exists_frame {sim : Sim} {st : Reader} {name : Str}
    {st' : Reader} {b : Bool}
    (h : check_if_exists sim st name = some (st', b)) : sameIndex st' st := by
  unfold check_if_exists at h
  by_cases hr : name ∈ st.real_names
  · rw [if_pos hr] at h
    simp only [Option.some.injEq, Prod.mk.injEq] at h
    rw [← h.1]
    exact ⟨rfl, rfl, rfl, rfl, rfl⟩
  · rw [if_neg hr] at h
    cases hl : dictLookup st.fake_name_map name with
    | some v =>
      rw [hl] at h
      simp only [Option.some.injEq, Prod.mk.injEq] at h
      rw [← h.1]
      exact ⟨rfl, rfl, rfl, rfl, rfl⟩
    | none =>
      rw [hl] at h
      exact check_if_similar_frame h

/-- C10: on the non-refreshing path, `check_if_similar` and
`check_if_exists` leave `base_set`, `real_names`, `fake_name_map`,
`ignore_list` and `max_name_word_cnt` untouched; only the diagnostic
fields `cur` and `max_match` are written. -/
theorem c10_lookup_frame (sim : Sim) (st : Reader) (name : Str)
    (st' : Reader) (b : Bool) :
    (check_if_similar sim st name = some (st', b) → sameIndex st' st) ∧
    (check_if_exists sim st name = some (st', b) → sameIndex st' st) :=
  ⟨check_if_similar_frame, check_if_exists_frame⟩

theorem c10_lookup_frame_witness :
    check_if_exists sim0 (initReader []) "a".toList =
        some (initReader [], false) ∧
      sameIndex (initReader []) (initReader []) :=
  ⟨by decide,
    (c10_lookup_frame sim0 (initReader []) "a".toList (initReader []) false).2
      (by decide)⟩

/-! ### Helper lemmas: `recomputeMax` and the refresh invariant (C5) -/

theorem foldl_max_init (a : Nat) (l : List Str) :
    l.foldl (fun m n => max m (wordCount n)) a = max a (recomputeMax l) := by
  induction l generalizing a with
  | nil => simp [recomputeMax]
  | cons x t ih =>
    simp only [recomputeMax, List.foldl_cons] at *
    rw [ih (max a (wordCount x)), ih (max 0 (wordCount x))]
    omega

theorem recomputeMax_append (l : List Str) (n : Str) :
    recomputeMax (l ++ [n]) = max (recomputeMax l) (wordCount n) := by
  simp only [recomputeMax, List.foldl_append, List.foldl_cons, List.foldl_nil]

theorem recomputeMax_cons (x : Str) (t : List Str) :
    recomputeMax (x :: t) = max (max 0 (wordCount x)) (recomputeMax t) := by
  simp only [recomputeMax, List.foldl_cons]
  rw [foldl_max_init]
  rfl

theorem le_recomputeMax {n : Str} {l : List Str} (h : n ∈ l) :
    wordCount n ≤ recomputeMax l := by
  induction l with
  | nil => cases h
  | cons x t ih =>
    rw [recomputeMax_cons]
    rcases List.mem_cons.mp h with rfl | hm
    · omega
    · have := ih hm
      omega

theorem recomputeMax_le {l : List Str} {M : Nat}
    (h : ∀ x ∈ l, wordCount x ≤ M) : recomputeMax l ≤ M := by
  induction l with
  | nil => simp [recomputeMax]
  | cons x t ih =>
    rw [recomputeMax_cons]
    have h1 := h x (List.mem_cons_self x t)
    have h2 := ih fun y hy => h y (List.mem_cons_of_mem x hy)
    omega

theorem recomputeMax_attained (l : List Str) :
    l = [] ∨ ∃ n ∈ l, wordCount n = recomputeMax l := by
  induction l with
  | nil => exact Or.inl rfl
  | cons x t ih =>
    right
    rcases ih with rfl | ⟨m, hm, hwc⟩
    · refine ⟨x, List.mem_cons_self x [], ?_⟩
      rw [recomputeMax_cons]
      simp [recomputeMax]
    · rcases Nat.le_total (wordCount m) (wordCount x) with hle | hle
      · refine ⟨x, List.mem_cons_self x t, ?_⟩
        rw [recomputeMax_cons]
        have hub : recomputeMax t ≤ wordCount x := by
          refine recomputeMax_le fun y hy => ?_
          have := le_recomputeMax hy
          omega
        omega
      · refine ⟨m, List.mem_cons_of_mem x hm, ?_⟩
        rw [recomputeMax_cons]
        have := le_recomputeMax hm
        omega

theorem recomputeMax_erase_of_ne {l : List Str} {n : Str}
    (h : wordCount n ≠ recomputeMax l) :
    recomputeMax (l.erase n) = recomputeMax l := by
  by_cases hn : n ∈ l
  · have hub : recomputeMax (l.erase n) ≤ recomputeMax l :=
      recomputeMax_le fun y hy =>
        le_recomputeMax ((l.erase_sublist n).mem hy)
    rcases recomputeMax_attained l with rfl | ⟨m, hm, hwc⟩
    · simp
    · have hmn : m ≠ n := fun he => h (he ▸ hwc)
      have hmem : m ∈ l.erase n := (List.mem_erase_of_ne hmn).mpr hm
      have hlb : wordCount m ≤ recomputeMax (l.erase n) := le_recomputeMax hmem
      omega
  · rw [List.erase_of_not_mem hn]

theorem addAliases_fields : ∀ (l : List Str) (st : Reader) (n : Str),
    (addAliases st n l).real_names = st.real_names ∧
    (addAliases st n l).max_name_word_cnt = st.max_name_word_cnt ∧
    (addAliases st n l).ignore_list = st.ignore_list := by
  intro l
  induction l with
  | nil => intro st n; exact ⟨rfl, rfl, rfl⟩
  | cons a t ih => intro st n; exact ih _ n

theorem processFetched_maxInv {st : Reader} {seen : List Str} {n : Str}
    (h : MaxInv st) : MaxInv (processFetched st seen n).1 := by
  unfold processFetched
  by_cases hig : n ∈ st.ignore_list
  · rw [if_pos hig]; exact h
  · rw [if_neg hig]
    by_cases hnew : n ∉ st.base_set ∧ categoryPrefix.isPrefixOf n = false
    · rw [if_pos hnew]
      simp only [MaxInv]
      rw [(addAliases_fields _ _ _).1, (addAliases_fields _ _ _).2.1]
      simp only [setAdd]
      by_cases hr : n ∈ st.real_names
      · rw [if_pos hr]
        have h1 := le_recomputeMax hr
        simp only [MaxInv] at h
        omega
      · rw [if_neg hr, recomputeMax_append]
        simp only [MaxInv] at h
        omega
    · rw [if_neg hnew]; exact h

theorem addPhase_maxInv : ∀ (fetched : List Str) (st : Reader) (seen : List Str),
    MaxInv st → MaxInv (addPhase st seen fetched).1 := by
  intro fetched
  induction fetched with
  | nil => intro st seen h; exact h
  | cons n t ih =>
    intro st seen h
    exact ih _ _ (processFetched_maxInv h)

theorem removeName_spec {st : Reader} {recalc : Bool} {n : Str}
    {st2 : Reader} {recalc2 : Bool}
    (h : removeName st recalc n = some (st2, recalc2)) :
    st2.max_name_word_cnt = st.max_name_word_cnt ∧
    st2.real_names = st.real_names.erase n ∧
    recalc2 = (recalc || decide (st.max_name_word_cnt = wordCount n)) := by
  unfold removeName at h
  simp only [Option.bind_eq_bind] at h
  rw [Option.bind_eq_some] at h
  obtain ⟨⟨base', map'⟩, ha, h⟩ := h
  simp only [setRemove] at h
  rw [Option.bind_eq_some] at h
  obtain ⟨base'', hb, h⟩ := h
  rw [Option.bind_eq_some] at h
  obtain ⟨real', hr, h⟩ := h
  rw [Option.bind_eq_some] at h
  obtain ⟨map'', hm, h⟩ := h
  simp only [Option.some.injEq, Prod.mk.injEq] at h
  obtain ⟨h1, h2⟩ := h
  by_cases hrn : n ∈ st.real_names
  · rw [if_pos hrn] at hr
    injection hr with hr
    rw [← h1, ← hr]
    exact ⟨rfl, rfl, h2.symm⟩
  · rw [if_neg hrn] at hr
    cases hr

theorem removalPhase_recalc_mono : ∀ (removed : List Str) (st : Reader)
    (st2 : Reader) (recalc2 : Bool),
    removalPhase st true removed = some (st2, recalc2) → recalc2 = true := by
  intro removed
  induction removed with
  | nil =>
    intro st st2 recalc2 h
    simp only [removalPhase, Option.some.injEq, Prod.mk.injEq] at h
    exact h.2.symm
  | cons n t ih =>
    intro st st2 recalc2 h
    rw [show removalPhase st true (n :: t) =
        (removeName st true n).bind (fun p => removalPhase p.1 p.2 t) from rfl] at h
    rw [Option.bind_eq_some] at h
    obtain ⟨⟨stm, rm⟩, hone, h⟩ := h
    obtain ⟨-, -, hrc⟩ := removeName_spec hone
    simp only [Bool.true_or] at hrc
    rw [hrc] at h
    exact ih stm st2 recalc2 h

theorem removalPhase_inv : ∀ (removed : List Str) (st : Reader) (recalc : Bool)
    (st2 : Reader) (recalc2 : Bool),
    removalPhase st recalc removed = some (st2, recalc2) →
    st2.max_name_word_cnt = st.max_name_word_cnt ∧
    (recalc2 = false → MaxInv st → MaxInv st2) := by
  intro removed
  induction removed with
  | nil =>
    intro st recalc st2 recalc2 h
    simp only [removalPhase, Option.some.injEq, Prod.mk.injEq] at h
    rw [← h.1]
    exact ⟨rfl, fun _ hInv => hInv⟩
  | cons n t ih =>
    intro st recalc st2 recalc2 h
    rw [show removalPhase st recalc (n :: t) =
        (removeName st recalc n).bind (fun p => removalPhase p.1 p.2 t) from rfl] at h
    rw [Option.bind_eq_some] at h
    obtain ⟨⟨stm, rm⟩, hone, h⟩ := h
    obtain ⟨hmax, hreal, hrc⟩ := removeName_spec hone
    obtain ⟨hmax2, hinv2⟩ := ih stm rm st2 recalc2 h
    refine ⟨by rw [hmax2, hmax], ?_⟩
    intro hr2 hInvSt
    apply hinv2 hr2
    have hrm : rm = false := by
      cases rm
      · rfl
      · exact absurd (removalPhase_recalc_mono t stm st2 recalc2 h) (by rw [hr2]; simp)
    have hor : (recalc || decide (st.max_name_word_cnt = wordCount n)) = false := by
      rw [← hrc, hrm]
    have hne0 : st.max_name_word_cnt ≠ wordCount n := by
      intro he
      rw [he] at hor
      simp at hor
    have hne : wordCount n ≠ recomputeMax st.real_names := fun he =>
      hne0 (hInvSt.trans he.symm)
    show stm.max_name_word_cnt = recomputeMax stm.real_names
    rw [hmax, hreal, recomputeMax_erase_of_ne hne]
    exact hInvSt

/-- C5: `max_name_word_cnt` equals the maximum word count over
`real_names` (0 when empty) in the freshly constructed reader, and the
property is preserved by every completed `update_info`, whatever mix of
additions and removals the snapshot induces. -/
theorem c5_max_word_cnt_invariant :
    (∀ ig : List Str, MaxInv (initReader ig)) ∧
    ∀ (st : Reader) (fetched : List Str), MaxInv st →
      (update_info st fetched).elim True MaxInv := by
  constructor
  · intro ig
    simp [MaxInv, initReader, recomputeMax]
  · intro st fetched hInv
    have hun : update_info st fetched =
        (removalPhase (addPhase st [] fetched).1 false
            ((addPhase st [] fetched).1.real_names.filter
              (fun n => decide (n ∉ (addPhase st [] fetched).2)))).bind
          (fun p => some (if p.2 = true then
              { p.1 with max_name_word_cnt := recomputeMax p.1.real_names }
            else p.1)) := rfl
    rw [hun]
    cases hap : addPhase st [] fetched with
    | mk st1 seen =>
      have hInv1 : MaxInv st1 := by
        have := addPhase_maxInv fetched st [] hInv
        rw [hap] at this
        exact this
      dsimp only
      cases hrp : removalPhase st1 false
          (st1.real_names.filter fun n => decide (n ∉ seen)) with
      | none => simp [hrp]
      | some pr =>
        obtain ⟨st2, recalc⟩ := pr
        simp only [hrp, Option.bind_eq_bind, Option.some_bind, Option.elim_some]
        cases recalc with
        | false =>
          simp only [if_neg (by simp : ¬ (false = true))]
          exact (removalPhase_inv _ _ _ _ _ hrp).2 rfl hInv1
        | true =>
          simp only [if_pos rfl]
          simp [MaxInv]

theorem c5_max_word_cnt_invariant_witness :
    MaxInv (initReader []) ∧
      (update_info (initReader []) ["a b".toList, "c".toList]).elim True MaxInv :=
  ⟨c5_max_word_cnt_invariant.1 [],
    c5_max_word_cnt_invariant.2 (initReader []) ["a b".toList, "c".toList] rfl⟩

/-! ### Helper lemmas: the similarity loop (C6) -/

theorem phraseScores_cons_pos {sim : Sim} {qs : List Str} {a : Str}
    (l : List Str) (h : (pySplit a).length = qs.length) :
    phraseScores sim qs (a :: l) =
      wordCheck sim qs (pySplit a) :: phraseScores sim qs l := by
  simp [phraseScores, List.filter_cons, h]

theorem phraseScores_cons_neg {sim : Sim} {qs : List Str} {a : Str}
    (l : List Str) (h : ¬ (pySplit a).length = qs.length) :
    phraseScores sim qs (a :: l) = phraseScores sim qs l := by
  simp [phraseScores, List.filter_cons, h]

theorem simLoop_spec (sim : Sim) (m : List (Str × Str)) (qs : List Str)
    (thresh : ℚ) (S : List Str) :
    ∀ (l : List Str) (mm : ℚ) (cur : Option Str),
      (∀ a ∈ l, a ∈ S) →
      (∀ a ∈ S, (dictLookup m a).isSome = true) →
      (cur.isSome = true ↔ thresh ≤ mm) →
      (∀ v, cur = some v → ∃ a ∈ S, (pySplit a).length = qs.length ∧
          wordCheck sim qs (pySplit a) = mm ∧ dictLookup m a = some v) →
      ∃ mm' cur', simLoop sim m qs thresh l mm cur = some (mm', cur') ∧
        mm' = (phraseScores sim qs l).foldl max mm ∧
        (cur'.isSome = true ↔ thresh ≤ mm') ∧
        (∀ v, cur' = some v → ∃ a ∈ S, (pySplit a).length = qs.length ∧
            wordCheck sim qs (pySplit a) = mm' ∧ dictLookup m a = some v) := by
  intro l
  induction l with
  | nil =>
    intro mm cur hsub hk hQ hR
    exact ⟨mm, cur, rfl, by simp [phraseScores], hQ, hR⟩
  | cons item rest ih =>
    intro mm cur hsub hk hQ hR
    have hrest : ∀ a ∈ rest, a ∈ S := fun a ha => hsub a (List.mem_cons_of_mem _ ha)
    have hstep : simLoop sim m qs thresh (item :: rest) mm cur =
        (if (pySplit item).length = qs.length then
          (if mm < wordCheck sim qs (pySplit item) then
            (if thresh ≤ wordCheck sim qs (pySplit item) then
              (match dictLookup m item with
               | none => none
               | some v => simLoop sim m qs thresh rest
                   (wordCheck sim qs (pySplit item)) (some v))
            else simLoop sim m qs thresh rest
              (wordCheck sim qs (pySplit item)) cur)
          else simLoop sim m qs thresh rest mm cur)
        else simLoop sim m qs thresh rest mm cur) := rfl
    by_cases hlen : (pySplit item).length = qs.length
    · by_cases hlt : mm < wordCheck sim qs (pySplit item)
      · by_cases hth : thresh ≤ wordCheck sim qs (pySplit item)
        · have hks := hk item (hsub item (List.mem_cons_self _ _))
          cases hlook : dictLookup m item with
          | none => rw [hlook] at hks; cases hks
          | some v =>
            obtain ⟨mm', cur', hrun, hfold, hQ', hR'⟩ :=
              ih (wordCheck sim qs (pySplit item)) (some v) hrest hk
                (by simp [hth])
                (by
                  intro w hw
                  injection hw with hw
                  exact ⟨item, hsub item (List.mem_cons_self _ _), hlen, rfl,
                    by rw [hlook, hw]⟩)
            refine ⟨mm', cur', ?_, ?_, hQ', hR'⟩
            · rw [hstep, if_pos hlen, if_pos hlt, if_pos hth, hlook]
              exact hrun
            · rw [hfold, phraseScores_cons_pos rest hlen, List.foldl_cons,
                max_eq_right (le_of_lt hlt)]
        · have hcurnone : cur = none := by
            cases hcur : cur with
            | none => rfl
            | some w =>
              have : thresh ≤ mm := hQ.mp (by rw [hcur]; rfl)
              exact absurd (le_trans this (le_of_lt hlt)) hth
          obtain ⟨mm', cur', hrun, hfold, hQ', hR'⟩ :=
            ih (wordCheck sim qs (pySplit item)) cur hrest hk
              (by
                rw [hcurnone]
                simp only [Option.isSome_none, Bool.false_eq_true, false_iff]
                exact hth)
              (by
                intro w hw
                rw [hcurnone] at hw
                cases hw)
          refine ⟨mm', cur', ?_, ?_, hQ', hR'⟩
          · rw [hstep, if_pos hlen, if_pos hlt, if_neg hth]
            exact hrun
          · rw [hfold, phraseScores_cons_pos rest hlen, List.foldl_cons,
              max_eq_right (le_of_lt hlt)]
      · obtain ⟨mm', cur', hrun, hfold, hQ', hR'⟩ := ih mm cur hrest hk hQ hR
        refine ⟨mm', cur', ?_, ?_, hQ', hR'⟩
        · rw [hstep, if_pos hlen, if_neg hlt]
          exact hrun
        · rw [hfold, phraseScores_cons_pos rest hlen, List.foldl_cons,
            max_eq_left (le_of_not_lt hlt)]
    · obtain ⟨mm', cur', hrun, hfold, hQ', hR'⟩ := ih mm cur hrest hk hQ hR
      refine ⟨mm', cur', ?_, ?_, hQ', hR'⟩
      · rw [hstep, if_neg hlen]
        exact hrun
      · rw [hfold, phraseScores_cons_neg rest hlen]

/-- C6: `check_if_similar` normalizes the query, scores every stored alias
of equal word count by the product over positions of `sim` on the words and
the reversed words, records the maximum such product in `max_match`
regardless of the threshold, and returns true precisely when that maximum
reaches `0.9 ^ n` (`n` the normalized query's word count), in which case
`cur` holds the canonical name mapped from a maximal-scoring alias;
otherwise `cur` is `None`.  The hypothesis that every `base_set` entry is a
`fake_name_map` key is the invariant `update_info` maintains; without it
the accepted lookup would raise. -/
theorem c6_check_if_similar_spec (sim : Sim) (st : Reader) (q : Str)
    (hk : ∀ a ∈ st.base_set, (dictLookup st.fake_name_map a).isSome = true) :
    ∃ st' b, check_if_similar sim st q = some (st', b) ∧
      b = st'.cur.isSome ∧
      st'.max_match =
        (phraseScores sim (pySplit (format_name q)) st.base_set).foldl max 0 ∧
      (b = true ↔
        (9/10 : ℚ) ^ (pySplit (format_name q)).length ≤ st'.max_match) ∧
      (b = false → st'.cur = none) ∧
      (∀ v, st'.cur = some v → ∃ a ∈ st.base_set,
        (pySplit a).length = (pySplit (format_name q)).length ∧
        wordCheck sim (pySplit (format_name q)) (pySplit a) = st'.max_match ∧
        dictLookup st.fake_name_map a = some v) := by
  have hthpos : (0 : ℚ) < (9/10 : ℚ) ^ (pySplit (format_name q)).length :=
    pow_pos (by norm_num) _
  obtain ⟨mm', cur', hrun, hfold, hQ, hR⟩ :=
    simLoop_spec sim st.fake_name_map (pySplit (format_name q))
      ((9/10 : ℚ) ^ (pySplit (format_name q)).length) st.base_set
      st.base_set 0 none (fun a ha => ha) hk
      (by
        simp only [Option.isSome_none, Bool.false_eq_true, false_iff, not_le]
        exact hthpos)
      (by intro v hv; cases hv)
  have hcs : check_if_similar sim st q =
      match simLoop sim st.fake_name_map (pySplit (format_name q))
          ((9/10 : ℚ) ^ (pySplit (format_name q)).length) st.base_set 0 none with
      | none => none
      | some (mm, cur) =>
        some ({st with max_match := mm, cur := cur}, cur.isSome) := rfl
  refine ⟨{st with max_match := mm', cur := cur'}, cur'.isSome, ?_, rfl,
    hfold, hQ, ?_, hR⟩
  · rw [hcs, hrun]
  · intro hb
    cases hcur : cur' with
    | none => rfl
    | some w => rw [hcur] at hb; cases hb

theorem c6_check_if_similar_spec_witness :
    ∃ st' b, check_if_similar sim0 (initReader []) "a".toList = some (st', b) ∧
      b = st'.cur.isSome ∧
      st'.max_match =
        (phraseScores sim0 (pySplit (format_name "a".toList))
          (initReader []).base_set).foldl max 0 ∧
      (b = true ↔
        (9/10 : ℚ) ^ (pySplit (format_name "a".toList)).length ≤
          st'.max_match) ∧
      (b = false → st'.cur = none) ∧
      (∀ v, st'.cur = some v → ∃ a ∈ (initReader []).base_set,
        (pySplit a).length = (pySplit (format_name "a".toList)).length ∧
        wordCheck sim0 (pySplit (format_name "a".toList)) (pySplit a) =
          st'.max_match ∧
        dictLookup (initReader []).fake_name_map a = some v) :=
  c6_check_if_similar_spec sim0 (initReader []) "a".toList
    (fun a ha => absurd ha (List.not_mem_nil a))

/-! ### Helper lemmas: splitting and joining (C3) -/

theorem pySplit_ne_nil (s : Str) : pySplit s ≠ [] := by
  cases s with
  | nil => simp [pySplit]
  | cons c rest =>
    unfold pySplit
    by_cases h : c = ' '
    · simp [h]
    · rw [if_neg h]
      cases pySplit rest <;> simp

theorem pySplit_length_pos (s : Str) : 1 ≤ (pySplit s).length := by
  cases h : pySplit s with
  | nil => exact absurd h (pySplit_ne_nil s)
  | cons w ws => simp

theorem joinSpace_pySplit (s : Str) : joinSpace (pySplit s) = s := by
  induction s with
  | nil => rfl
  | cons c rest ih =>
    unfold pySplit
    by_cases h : c = ' '
    · rw [if_pos h]
      cases h' : pySplit rest with
      | nil => exact absurd h' (pySplit_ne_nil rest)
      | cons w ws =>
        rw [h'] at ih
        show joinSpace ([] :: w :: ws) = c :: rest
        show [] ++ ' ' :: joinSpace (w :: ws) = c :: rest
        rw [List.nil_append, ih, h]
    · rw [if_neg h]
      cases h' : pySplit rest with
      | nil => exact absurd h' (pySplit_ne_nil rest)
      | cons w ws =>
        rw [h'] at ih
        cases ws with
        | nil =>
          show c :: w = c :: rest
          rw [show joinSpace [w] = w from rfl] at ih
          rw [ih]
        | cons w2 ws2 =>
          show (c :: w) ++ ' ' :: joinSpace (w2 :: ws2) = c :: rest
          rw [List.cons_append, ← ih]
          rfl

/-! ### Helper lemmas: dictionary and alias insertion (C3) -/

theorem dictLookup_insert {β : Type} (m : List (Str × β)) (k : Str) (v : β)
    (key : Str) :
    dictLookup (dictInsert m k v) key =
      if key = k then some v else dictLookup m key := by
  induction m with
  | nil =>
    show (if k = key then some v else none) = _
    by_cases h : k = key
    · rw [if_pos h, if_pos h.symm]
    · rw [if_neg h, if_neg (fun he => h he.symm)]
      rfl
  | cons p rest ih =>
    obtain ⟨k', v'⟩ := p
    show dictLookup (if k' = k then (k, v) :: rest else (k', v') :: dictInsert rest k v) key = _
    by_cases h1 : k' = k
    · rw [if_pos h1]
      show (if k = key then some v else dictLookup rest key) = _
      by_cases h3 : key = k
      · rw [if_pos h3.symm, if_pos h3]
      · rw [if_neg (fun he => h3 he.symm), if_neg h3]
        show _ = (if k' = key then some v' else dictLookup rest key)
        rw [if_neg (fun he => h3 (he.symm.trans h1))]
    · rw [if_neg h1]
      show (if k' = key then some v' else dictLookup (dictInsert rest k v) key) = _
      by_cases h2 : k' = key
      · rw [if_pos h2, if_neg (fun he => h1 (h2.trans he)),
          show dictLookup ((k', v') :: rest) key = (if k' = key then some v' else dictLookup rest key) from rfl,
          if_pos h2]
      · rw [if_neg h2, ih]
        by_cases h3 : key = k
        · rw [if_pos h3, if_pos h3]
        · rw [if_neg h3, if_neg h3,
            show dictLookup ((k', v') :: rest) key = (if k' = key then some v' else dictLookup rest key) from rfl,
            if_neg h2]

theorem addAliases_map_values : ∀ (l : List Str) (st : Reader) (n : Str),
    (∀ k v, dictLookup st.fake_name_map k = some v → v = n) →
    ∀ k v, dictLookup (addAliases st n l).fake_name_map k = some v → v = n := by
  intro l
  induction l with
  | nil => intro st n h; exact h
  | cons a t ih =>
    intro st n h
    refine ih _ n ?_
    intro k v hk
    dsimp only at hk
    rw [dictLookup_insert] at hk
    by_cases hka : k = a
    · rw [if_pos hka] at hk
      injection hk with hk
      exact hk.symm
    · rw [if_neg hka] at hk
      exact h k v hk

theorem addAliases_keys : ∀ (l : List Str) (st : Reader) (n : Str),
    (∀ a ∈ st.base_set, (dictLookup st.fake_name_map a).isSome = true) →
    ∀ a ∈ (addAliases st n l).base_set,
      (dictLookup (addAliases st n l).fake_name_map a).isSome = true := by
  intro l
  induction l with
  | nil => intro st n h; exact h
  | cons x t ih =>
    intro st n h
    refine ih _ n ?_
    intro a ha
    show (dictLookup (dictInsert st.fake_name_map x n) a).isSome = true
    rw [dictLookup_insert]
    by_cases hax : a = x
    · rw [if_pos hax]
      rfl
    · rw [if_neg hax]
      have hab : a ∈ st.base_set := by
        have : a ∈ setAdd st.base_set x := ha
        rcases mem_setAdd.mp this with h' | h'
        · exact h'
        · exact absurd h' hax
      exact h a hab

theorem seed_real_names (N : Str) :
    (addAliases (seedReader N) N (gen_alternative_names N)).real_names = [N] :=
  (addAliases_fields _ _ _).1

theorem seed_max_cnt (N : Str) :
    (addAliases (seedReader N) N
      (gen_alternative_names N)).max_name_word_cnt = wordCount N := by
  rw [(addAliases_fields _ _ _).2.1]
  show max 0 (wordCount N) = wordCount N
  omega

theorem seed_ignore (N : Str) :
    (addAliases (seedReader N) N (gen_alternative_names N)).ignore_list = [] :=
  (addAliases_fields _ _ _).2.2

theorem seed_map_values (N : Str) :
    ∀ k v, dictLookup (addAliases (seedReader N) N
      (gen_alternative_names N)).fake_name_map k = some v → v = N := by
  refine addAliases_map_values _ _ _ ?_
  intro k v hk
  show v = N
  rw [show (seedReader N).fake_name_map = [(N, N)] from rfl] at hk
  by_cases hkn : N = k
  · rw [show dictLookup [(N, N)] k = (if N = k then some N else none) from rfl,
      if_pos hkn] at hk
    injection hk with hk
    exact hk.symm
  · rw [show dictLookup [(N, N)] k = (if N = k then some N else none) from rfl,
      if_neg hkn] at hk
    cases hk

theorem seed_keys (N : Str) :
    ∀ a ∈ (addAliases (seedReader N) N (gen_alternative_names N)).base_set,
      (dictLookup (addAliases (seedReader N) N
        (gen_alternative_names N)).fake_name_map a).isSome = true := by
  refine addAliases_keys _ _ _ ?_
  intro a ha
  have haN : a = N := List.mem_singleton.mp ha
  rw [haN]
  rw [show dictLookup (seedReader N).fake_name_map N =
      (if N = N then some N else none) from rfl, if_pos rfl]
  rfl

theorem update_info_single (N : Str)
    (hN : categoryPrefix.isPrefixOf N = false) :
    update_info (initReader []) [N] =
      some (addAliases (seedReader N) N (gen_alternative_names N)) := by
  have hpf : processFetched (initReader []) [] N =
      (addAliases (seedReader N) N (gen_alternative_names N), [N]) := by
    unfold processFetched
    dsimp only [initReader]
    rw [if_neg (List.not_mem_nil N), if_pos ⟨List.not_mem_nil N, hN⟩]
    rfl
  have hadd : addPhase (initReader []) [] [N] =
      (addAliases (seedReader N) N (gen_alternative_names N), [N]) := by
    simp only [addPhase, hpf]
  have hrem : (addAliases (seedReader N) N
      (gen_alternative_names N)).real_names.filter
        (fun n => decide (n ∉ ([N] : List Str))) = [] := by
    rw [seed_real_names]
    simp
  have hun : update_info (initReader []) [N] =
      (removalPhase (addPhase (initReader []) [] [N]).1 false
          ((addPhase (initReader []) [] [N]).1.real_names.filter
            (fun n => decide (n ∉ (addPhase (initReader []) [] [N]).2)))).bind
        (fun p => some (if p.2 = true then
            { p.1 with max_name_word_cnt := recomputeMax p.1.real_names }
          else p.1)) := rfl
  rw [hun, hadd]
  dsimp only
  rw [hrem]
  rw [show removalPhase (addAliases (seedReader N) N (gen_alternative_names N))
      false [] =
      some (addAliases (seedReader N) N (gen_alternative_names N), false)
      from rfl]
  rw [Option.some_bind]
  dsimp only
  rw [if_neg (by simp : ¬ (false = true))]

/-! ### Helper lemmas: score bounds and the mentions accumulator (C3) -/

theorem wordCheck_bounds {sim : Sim} (hsim : ∀ a b, 0 ≤ sim a b ∧ sim a b ≤ 1)
    (qs cs : List Str) : 0 ≤ wordCheck sim qs cs ∧ wordCheck sim qs cs ≤ 1 := by
  unfold wordCheck
  have key : ∀ (l : List (Str × Str)) (acc : ℚ), 0 ≤ acc → acc ≤ 1 →
      0 ≤ l.foldl (fun acc p => acc * sim p.1 p.2 * sim p.1.reverse p.2.reverse) acc ∧
      l.foldl (fun acc p => acc * sim p.1 p.2 * sim p.1.reverse p.2.reverse) acc ≤ 1 := by
    intro l
    induction l with
    | nil => intro acc h0 h1; exact ⟨h0, h1⟩
    | cons p t ih =>
      intro acc h0 h1
      refine ih _ ?_ ?_
      · exact mul_nonneg (mul_nonneg h0 (hsim p.1 p.2).1)
          (hsim p.1.reverse p.2.reverse).1
      · have h2 : acc * sim p.1 p.2 ≤ 1 :=
          mul_le_one₀ h1 (hsim p.1 p.2).1 (hsim p.1 p.2).2
        exact mul_le_one₀ h2 (hsim p.1.reverse p.2.reverse).1
          (hsim p.1.reverse p.2.reverse).2
  exact key _ 1 (by norm_num) le_rfl

theorem foldl_max_bounds {l : List ℚ} (hl : ∀ x ∈ l, 0 ≤ x ∧ x ≤ 1) :
    ∀ acc : ℚ, 0 ≤ acc → acc ≤ 1 →
      0 ≤ l.foldl max acc ∧ l.foldl max acc ≤ 1 := by
  induction l with
  | nil => intro acc h0 h1; exact ⟨h0, h1⟩
  | cons x t ih =>
    intro acc h0 h1
    have hx := hl x (List.mem_cons_self x t)
    have ht : ∀ y ∈ t, 0 ≤ y ∧ y ≤ 1 := fun y hy =>
      hl y (List.mem_cons_of_mem x hy)
    exact ih ht (max acc x) (le_max_of_le_left h0) (max_le h1 hx.2)

theorem phraseScores_bounds {sim : Sim}
    (hsim : ∀ a b, 0 ≤ sim a b ∧ sim a b ≤ 1) (qs : List Str) (l : List Str) :
    ∀ x ∈ phraseScores sim qs l, 0 ≤ x ∧ x ≤ 1 := by
  intro x hx
  unfold phraseScores at hx
  rcases List.mem_map.mp hx with ⟨a, -, rfl⟩
  exact wordCheck_bounds hsim qs (pySplit a)

theorem dictLookup_single_pos {β : Type} (k : Str) (v : β) :
    dictLookup [(k, v)] k = some v := by
  rw [show dictLookup [(k, v)] k = (if k = k then some v else none) from rfl,
    if_pos rfl]

theorem dictInsert_single_pos {β : Type} (k : Str) (v w : β) :
    dictInsert [(k, v)] k w = [(k, w)] := by
  rw [show dictInsert [(k, v)] k w =
    (if k = k then [(k, w)] else (k, v) :: dictInsert [] k w) from rfl,
    if_pos rfl]

theorem updateMentions_nil (N : Str) (c : ℚ) :
    updateMentions [] N c = [(N, c)] := rfl

theorem updateMentions_single (N : Str) (q c : ℚ) :
    updateMentions [(N, q)] N c = [(N, max c q)] := by
  unfold updateMentions
  rw [dictLookup_single_pos]
  exact dictInsert_single_pos N q (max c q)

theorem updateMentions_msinv {N : Str} {ms : Mentions} {c : ℚ}
    (h : MsInv N ms) (h0 : 0 ≤ c) (h1 : c ≤ 100) :
    MsInv N (updateMentions ms N c) := by
  rcases h with rfl | ⟨q, hq0, hq1, rfl⟩
  · exact Or.inr ⟨c, h0, h1, updateMentions_nil N c⟩
  · exact Or.inr ⟨max c q, le_max_of_le_left h0, max_le h1 hq1,
      updateMentions_single N q c⟩

theorem updateMentions_absorb {N : Str} {c : ℚ} (h : c ≤ 100) :
    updateMentions [(N, 100)] N c = [(N, 100)] := by
  rw [updateMentions_single, max_eq_right h]

theorem updateMentions_to_100 {N : Str} {ms : Mentions} (h : MsInv N ms) :
    updateMentions ms N 100 = [(N, 100)] := by
  rcases h with rfl | ⟨q, hq0, hq1, rfl⟩
  · exact updateMentions_nil N 100
  · rw [updateMentions_single, max_eq_left hq1]

theorem sameIndex_refl (a : Reader) : sameIndex a a := ⟨rfl, rfl, rfl, rfl, rfl⟩

theorem sameIndex_trans {a b c : Reader} (h1 : sameIndex a b)
    (h2 : sameIndex b c) : sameIndex a c :=
  ⟨h1.1.trans h2.1, h1.2.1.trans h2.2.1, h1.2.2.1.trans h2.2.2.1,
    h1.2.2.2.1.trans h2.2.2.2.1, h1.2.2.2.2.trans h2.2.2.2.2⟩

theorem scanPhrase_spec (sim : Sim) (N : Str) (st : Reader) (ms : Mentions)
    (p : Str)
    (hsim : ∀ a b, 0 ≤ sim a b ∧ sim a b ≤ 1)
    (hreal : st.real_names = [N])
    (hvals : ∀ k v, dictLookup st.fake_name_map k = some v → v = N)
    (hkeys : ∀ a ∈ st.base_set, (dictLookup st.fake_name_map a).isSome = true) :
    ∃ st' ms', scanPhrase sim (st, ms) p = some (st', ms') ∧ sameIndex st' st ∧
      (ms' = ms ∨ ∃ c : ℚ, 0 ≤ c ∧ c ≤ 100 ∧ ms' = updateMentions ms N c) ∧
      (p = N → ms' = updateMentions ms N 100) := by
  have hsp : scanPhrase sim (st, ms) p =
      (check_if_exists sim st p).bind (fun q =>
        if q.2 = true then
          match q.1.cur with
          | some c => some (q.1, updateMentions ms c (q.1.max_match * 100))
          | none => none
        else some (q.1, ms)) := rfl
  by_cases hp : p ∈ st.real_names
  · have hpe : p = N := by
      rw [hreal] at hp
      exact List.mem_singleton.mp hp
    have hce : check_if_exists sim st p =
        some ({st with cur := some p, max_match := 1}, true) := by
      unfold check_if_exists
      rw [if_pos hp]
    refine ⟨{st with cur := some p, max_match := 1},
      updateMentions ms p ((1 : ℚ) * 100), ?_, ⟨rfl, rfl, rfl, rfl, rfl⟩, ?_, ?_⟩
    · rw [hsp, hce, Option.some_bind]
      rfl
    · refine Or.inr ⟨100, by norm_num, le_rfl, ?_⟩
      rw [hpe, one_mul]
    · intro _
      rw [hpe, one_mul]
  · cases hlook : dictLookup st.fake_name_map p with
    | some v =>
      have hv : v = N := hvals p v hlook
      have hce : check_if_exists sim st p =
          some ({st with cur := some v, max_match := 1}, true) := by
        unfold check_if_exists
        rw [if_neg hp, hlook]
      refine ⟨{st with cur := some v, max_match := 1},
        updateMentions ms v ((1 : ℚ) * 100), ?_, ⟨rfl, rfl, rfl, rfl, rfl⟩, ?_, ?_⟩
      · rw [hsp, hce, Option.some_bind]
        rfl
      · refine Or.inr ⟨100, by norm_num, le_rfl, ?_⟩
        rw [hv, one_mul]
      · intro hpe
        exact absurd (by rw [hreal, hpe]; exact List.mem_singleton_self N) hp
    | none =>
      have hnotN : p ≠ N := by
        intro hpe
        exact absurd (by rw [hreal, hpe]; exact List.mem_singleton_self N) hp
      have hthpos : (0 : ℚ) < (9/10 : ℚ) ^ (pySplit (format_name p)).length :=
        pow_pos (by norm_num) _
      obtain ⟨mm', cur', hrun, hfold, hQ, hR⟩ :=
        simLoop_spec sim st.fake_name_map (pySplit (format_name p))
          ((9/10 : ℚ) ^ (pySplit (format_name p)).length) st.base_set
          st.base_set 0 none (fun a ha => ha) hkeys
          (by
            simp only [Option.isSome_none, Bool.false_eq_true, false_iff, not_le]
            exact hthpos)
          (by intro v hv; cases hv)
      have hcs : check_if_similar sim st p =
          some ({st with max_match := mm', cur := cur'}, cur'.isSome) := by
        have hcse : check_if_similar sim st p =
            match simLoop sim st.fake_name_map (pySplit (format_name p))
                ((9/10 : ℚ) ^ (pySplit (format_name p)).length)
                st.base_set 0 none with
            | none => none
            | some (mm, cur) =>
              some ({st with max_match := mm, cur := cur}, cur.isSome) := rfl
        rw [hcse, hrun]
      have hce : check_if_exists sim st p =
          some ({st with max_match := mm', cur := cur'}, cur'.isSome) := by
        unfold check_if_exists
        rw [if_neg hp, hlook]
        exact hcs
      have hbounds : 0 ≤ mm' ∧ mm' ≤ 1 := by
        rw [hfold]
        exact foldl_max_bounds
          (phraseScores_bounds hsim (pySplit (format_name p)) st.base_set)
          0 le_rfl (by norm_num)
      cases hcur : cur' with
      | none =>
        refine ⟨{st with max_match := mm', cur := cur'}, ms, ?_,
          ⟨rfl, rfl, rfl, rfl, rfl⟩, Or.inl rfl, fun hpe => absurd hpe hnotN⟩
        rw [hsp, hce, Option.some_bind]
        dsimp only
        rw [hcur]
        rfl
      | some v =>
        obtain ⟨a, ha, -, -, hlk⟩ := hR v hcur
        have hv : v = N := hvals a v hlk
        refine ⟨{st with max_match := mm', cur := cur'},
          updateMentions ms v (mm' * 100), ?_,
          ⟨rfl, rfl, rfl, rfl, rfl⟩, ?_, fun hpe => absurd hpe hnotN⟩
        · rw [hsp, hce, Option.some_bind]
          dsimp only
          rw [hcur]
          rfl
        · refine Or.inr ⟨mm' * 100, ?_, ?_, by rw [hv]⟩
          · exact mul_nonneg hbounds.1 (by norm_num)
          · calc mm' * 100 ≤ 1 * 100 :=
                mul_le_mul_of_nonneg_right hbounds.2 (by norm_num)
              _ = 100 := one_mul 100

theorem scanOffsets_pres (sim : Sim) (N : Str) (words : List Str)
    (word_pos : Nat) (hsim : ∀ a b, 0 ≤ sim a b ∧ sim a b ≤ 1) :
    ∀ (cnt offset : Nat) (st : Reader) (ms : Mentions),
      st.real_names = [N] →
      (∀ k v, dictLookup st.fake_name_map k = some v → v = N) →
      (∀ a ∈ st.base_set, (dictLookup st.fake_name_map a).isSome = true) →
      ∃ st' ms', scanOffsets sim words word_pos offset cnt (st, ms) =
          some (st', ms') ∧ sameIndex st' st ∧
        (MsInv N ms → MsInv N ms') ∧
        (ms = [(N, 100)] → ms' = [(N, 100)]) := by
  intro cnt
  induction cnt with
  | zero =>
    intro offset st ms hreal hvals hkeys
    exact ⟨st, ms, rfl, sameIndex_refl st, fun h => h, fun h => h⟩
  | succ c ih =>
    intro offset st ms hreal hvals hkeys
    have hso : scanOffsets sim words word_pos offset (c+1) (st, ms) =
        (if words.length < word_pos + offset then some (st, ms)
         else (scanPhrase sim (st, ms)
             (joinSpace (List.take offset (List.drop word_pos words)))).bind
           (fun acc' => scanOffsets sim words word_pos (offset+1) c acc')) := rfl
    by_cases hg : words.length < word_pos + offset
    · refine ⟨st, ms, ?_, sameIndex_refl st, fun h => h, fun h => h⟩
      rw [hso, if_pos hg]
    · obtain ⟨st1, ms1, hrun1, hsi1, hmsA, hmsB⟩ :=
        scanPhrase_spec sim N st ms
          (joinSpace (List.take offset (List.drop word_pos words)))
          hsim hreal hvals hkeys
      have hreal1 : st1.real_names = [N] := hsi1.2.1.trans hreal
      have hvals1 : ∀ k v, dictLookup st1.fake_name_map k = some v → v = N := by
        rw [hsi1.2.2.1]
        exact hvals
      have hkeys1 : ∀ a ∈ st1.base_set,
          (dictLookup st1.fake_name_map a).isSome = true := by
        rw [hsi1.1, hsi1.2.2.1]
        exact hkeys
      obtain ⟨st2, ms2, hrun2, hsi2, hA2, hB2⟩ :=
        ih (offset+1) st1 ms1 hreal1 hvals1 hkeys1
      refine ⟨st2, ms2, ?_, sameIndex_trans hsi2 hsi1, ?_, ?_⟩
      · rw [hso, if_neg hg, hrun1, Option.some_bind, hrun2]
      · intro hms
        apply hA2
        rcases hmsA with heq | ⟨cq, h0, h1, heq⟩
        · rw [heq]; exact hms
        · rw [heq]; exact updateMentions_msinv hms h0 h1
      · intro hms
        apply hB2
        rcases hmsA with heq | ⟨cq, h0, h1, heq⟩
        · rw [heq]; exact hms
        · rw [heq, hms]; exact updateMentions_absorb h1

theorem scanOffsets_reach (sim : Sim) (N : Str)
    (hsim : ∀ a b, 0 ≤ sim a b ∧ sim a b ≤ 1) :
    ∀ (cnt offset : Nat) (st : Reader) (ms : Mentions),
      st.real_names = [N] →
      (∀ k v, dictLookup st.fake_name_map k = some v → v = N) →
      (∀ a ∈ st.base_set, (dictLookup st.fake_name_map a).isSome = true) →
      offset ≤ (pySplit N).length →
      (pySplit N).length < offset + cnt →
      MsInv N ms →
      ∃ st' ms', scanOffsets sim (pySplit N) 0 offset cnt (st, ms) =
          some (st', ms') ∧ sameIndex st' st ∧ ms' = [(N, 100)] := by
  intro cnt
  induction cnt with
  | zero =>
    intro offset st ms _ _ _ h1 h2 _
    omega
  | succ c ih =>
    intro offset st ms hreal hvals hkeys h1 h2 hms
    have hso : scanOffsets sim (pySplit N) 0 offset (c+1) (st, ms) =
        (if (pySplit N).length < 0 + offset then some (st, ms)
         else (scanPhrase sim (st, ms)
             (joinSpace (List.take offset (List.drop 0 (pySplit N))))).bind
           (fun acc' => scanOffsets sim (pySplit N) 0 (offset+1) c acc')) := rfl
    have hg : ¬ ((pySplit N).length < 0 + offset) := by omega
    obtain ⟨st1, ms1, hrun1, hsi1, hmsA, hmsB⟩ :=
      scanPhrase_spec sim N st ms
        (joinSpace (List.take offset (List.drop 0 (pySplit N))))
        hsim hreal hvals hkeys
    have hreal1 : st1.real_names = [N] := hsi1.2.1.trans hreal
    have hvals1 : ∀ k v, dictLookup st1.fake_name_map k = some v → v = N := by
      rw [hsi1.2.2.1]
      exact hvals
    have hkeys1 : ∀ a ∈ st1.base_set,
        (dictLookup st1.fake_name_map a).isSome = true := by
      rw [hsi1.1, hsi1.2.2.1]
      exact hkeys
    by_cases heq : offset = (pySplit N).length
    · have hpN : joinSpace (List.take offset (List.drop 0 (pySplit N))) = N := by
        rw [List.drop_zero, heq, List.take_length, joinSpace_pySplit]
      have hms1 : ms1 = [(N, 100)] := by
        rw [hmsB hpN]
        exact updateMentions_to_100 hms
      obtain ⟨st2, ms2, hrun2, hsi2, hA2, hB2⟩ :=
        scanOffsets_pres sim N (pySplit N) 0 hsim c (offset+1) st1 ms1
          hreal1 hvals1 hkeys1
      refine ⟨st2, ms2, ?_, sameIndex_trans hsi2 hsi1, hB2 hms1⟩
      rw [hso, if_neg hg, hrun1, Option.some_bind, hrun2]
    · have hms1 : MsInv N ms1 := by
        rcases hmsA with hmeq | ⟨cq, h0, h1c, hmeq⟩
        · rw [hmeq]; exact hms
        · rw [hmeq]; exact updateMentions_msinv hms h0 h1c
      obtain ⟨st2, ms2, hrun2, hsi2, hfin⟩ :=
        ih (offset+1) st1 ms1 hreal1 hvals1 hkeys1 (by omega) (by omega) hms1
      refine ⟨st2, ms2, ?_, sameIndex_trans hsi2 hsi1, hfin⟩
      rw [hso, if_neg hg, hrun1, Option.some_bind, hrun2]

theorem scanPositions_pres (sim : Sim) (N : Str) (words : List Str)
    (hsim : ∀ a b, 0 ≤ sim a b ∧ sim a b ≤ 1) :
    ∀ (cnt pos : Nat) (st : Reader) (ms : Mentions),
      st.real_names = [N] →
      (∀ k v, dictLookup st.fake_name_map k = some v → v = N) →
      (∀ a ∈ st.base_set, (dictLookup st.fake_name_map a).isSome = true) →
      ∃ st' ms', scanPositions sim words pos cnt (st, ms) = some (st', ms') ∧
        sameIndex st' st ∧ (ms = [(N, 100)] → ms' = [(N, 100)]) := by
  intro cnt
  induction cnt with
  | zero =>
    intro pos st ms hreal hvals hkeys
    exact ⟨st, ms, rfl, sameIndex_refl st, fun h => h⟩
  | succ c ih =>
    intro pos st ms hreal hvals hkeys
    have hso : scanPositions sim words pos (c+1) (st, ms) =
        (scanOffsets sim words pos 1 st.max_name_word_cnt (st, ms)).bind
          (fun acc' => scanPositions sim words (pos+1) c acc') := rfl
    obtain ⟨st1, ms1, hrun1, hsi1, hA1, hB1⟩ :=
      scanOffsets_pres sim N words pos hsim st.max_name_word_cnt 1 st ms
        hreal hvals hkeys
    have hreal1 : st1.real_names = [N] := hsi1.2.1.trans hreal
    have hvals1 : ∀ k v, dictLookup st1.fake_name_map k = some v → v = N := by
      rw [hsi1.2.2.1]
      exact hvals
    have hkeys1 : ∀ a ∈ st1.base_set,
        (dictLookup st1.fake_name_map a).isSome = true := by
      rw [hsi1.1, hsi1.2.2.1]
      exact hkeys
    obtain ⟨st2, ms2, hrun2, hsi2, hB2⟩ := ih (pos+1) st1 ms1 hreal1 hvals1 hkeys1
    refine ⟨st2, ms2, ?_, sameIndex_trans hsi2 hsi1, fun hms => hB2 (hB1 hms)⟩
    rw [hso, hrun1, Option.some_bind, hrun2]

/-- C3, counterexample: for the canonical name `Category:A` the claim
fails: `update_info` filters every `Category:`-prefixed name, so after
`refresh({Category:A}, {})` the index is empty and
`check_if_exists("Category:A")` returns false rather than true. -/
theorem c3_category_counterexample :
    (update_info (initReader []) ["Category:A".toList]).bind
      (fun st => (check_if_exists sim0 st "Category:A".toList).map Prod.snd)
      = some false := by decide

/-- C3, amended: for every canonical name `N` that does not start with
`Category:` (names with that prefix are filtered out of the index), after
`refresh({N}, {})` with an empty ignore list, `check_if_exists(N)` returns
true, and scanning the title `N` yields exactly the mention map
`{N ↦ 100}` — confidence 1.0 on the `[0,1]` scale, stored `×100` as the
code does.  The similarity parameter ranges over `[0,1]`, as spec
section 4.4 guarantees for Jaro-Winkler. -/
theorem c3_refresh_then_scan (N : Str) (sim : Sim)
    (hN : categoryPrefix.isPrefixOf N = false)
    (hsim : ∀ a b, 0 ≤ sim a b ∧ sim a b ≤ 1) :
    ∃ st1 stE stS, update_info (initReader []) [N] = some st1 ∧
      check_if_exists sim st1 N = some (stE, true) ∧
      check_all_word_combos sim st1 N = some (stS, [(N, 100)]) := by
  have hreal := seed_real_names N
  have hvals := seed_map_values N
  have hkeys := seed_keys N
  have hmax := seed_max_cnt N
  have hNin : N ∈ (addAliases (seedReader N) N
      (gen_alternative_names N)).real_names := by
    rw [hreal]
    exact List.mem_singleton_self N
  have hce : check_if_exists sim (addAliases (seedReader N) N
        (gen_alternative_names N)) N =
      some ({ addAliases (seedReader N) N (gen_alternative_names N) with
        cur := some N, max_match := 1 }, true) := by
    unfold check_if_exists
    rw [if_pos hNin]
  have hw1 : 1 ≤ (pySplit N).length := pySplit_length_pos N
  obtain ⟨w', hw'⟩ : ∃ w', (pySplit N).length = w' + 1 :=
    ⟨(pySplit N).length - 1, by omega⟩
  have hmaxlen : (addAliases (seedReader N) N
      (gen_alternative_names N)).max_name_word_cnt = (pySplit N).length := hmax
  obtain ⟨stA, msA, hrunA, hsiA, hmsA⟩ :=
    scanOffsets_reach sim N hsim
      (addAliases (seedReader N) N (gen_alternative_names N)).max_name_word_cnt
      1 (addAliases (seedReader N) N (gen_alternative_names N)) []
      hreal hvals hkeys hw1 (by rw [hmaxlen]; omega) (Or.inl rfl)
  have hrealA : stA.real_names = [N] := hsiA.2.1.trans hreal
  have hvalsA : ∀ k v, dictLookup stA.fake_name_map k = some v → v = N := by
    rw [hsiA.2.2.1]
    exact hvals
  have hkeysA : ∀ a ∈ stA.base_set,
      (dictLookup stA.fake_name_map a).isSome = true := by
    rw [hsiA.1, hsiA.2.2.1]
    exact hkeys
  obtain ⟨stB, msB, hrunB, hsiB, hB⟩ :=
    scanPositions_pres sim N (pySplit N) hsim w' 1 stA msA hrealA hvalsA hkeysA
  have hmsB : msB = [(N, 100)] := hB hmsA
  have hscan : check_all_word_combos sim
      (addAliases (seedReader N) N (gen_alternative_names N)) N =
      some (stB, msB) := by
    have h0 : check_all_word_combos sim
        (addAliases (seedReader N) N (gen_alternative_names N)) N =
        scanPositions sim (pySplit N) 0 (pySplit N).length
          (addAliases (seedReader N) N (gen_alternative_names N), []) := rfl
    have h1 : scanPositions sim (pySplit N) 0 (w' + 1)
        (addAliases (seedReader N) N (gen_alternative_names N), []) =
        (scanOffsets sim (pySplit N) 0 1
            (addAliases (seedReader N) N
              (gen_alternative_names N)).max_name_word_cnt
            (addAliases (seedReader N) N (gen_alternative_names N), [])).bind
          (fun acc' => scanPositions sim (pySplit N) 1 w' acc') := rfl
    rw [h0, hw', h1, hrunA, Option.some_bind, hrunB]
  exact ⟨addAliases (seedReader N) N (gen_alternative_names N),
    { addAliases (seedReader N) N (gen_alternative_names N) with
      cur := some N, max_match := 1 }, stB,
    update_info_single N hN, hce, by rw [hscan, hmsB]⟩

theorem c3_refresh_then_scan_witness :
    categoryPrefix.isPrefixOf "Ab".toList = false ∧
      ∃ st1 stE stS, update_info (initReader []) ["Ab".toList] = some st1 ∧
        check_if_exists sim0 st1 "Ab".toList = some (stE, true) ∧
        check_all_word_combos sim0 st1 "Ab".toList =
          some (stS, [("Ab".toList, 100)]) :=
  ⟨by decide, c3_refresh_then_scan "Ab".toList sim0 (by decide)
    (fun a b => ⟨le_refl 0, by rw [show sim0 a b = 0 from rfl]; norm_num⟩)⟩
